import Mathlib

/-!
Verification of the ElGamal cryptosystem implementation (net-junk/ElGamal).

The Rust sources are shallowly embedded: `BigUint` becomes `Nat`
(arbitrary-precision unsigned, so no overflow reduction is needed),
fallible functions return a `Result` mirroring `src/error.rs`, and the
caller-supplied randomness source is modelled by passing the sampled
ephemeral values explicitly (each `rng.gen_biguint_range(1, q)` call
becomes an explicit parameter quantified over `[1, q)`).  The external
digest capability is modelled as an arbitrary function from the fed byte
stream to the integer value of the finalized hash.
-/

namespace ElGamal

/-- Error kinds, from `src/error.rs`. -/
inductive Error where
  | InvalidPrivateKey
  | MessageTooLong
  | Verification
  | InvalidInverse
  | InvalidRange
  | InvalidData
  | InvalidOID
  | PrivateKeyMalformed
  | PublicKeyMalformed
deriving DecidableEq, Repr

/-- `Result<T> = core::result::Result<T, Error>`, from `src/error.rs`. -/
inductive Result (α : Type) where
  | ok (v : α)
  | err (e : Error)
deriving DecidableEq, Repr

/-- `BigUint::modpow(e, m)`: modular exponentiation, an external capability
of the num-bigint library (extensionally `b ^ e % m`). -/
def modpow (b e m : Nat) : Nat := b ^ e % m

/-- `BigUint::mod_inverse(n)` (num-bigint-dig): the modular inverse of `a`
modulo `n` when it exists (`gcd(a, n) = 1`), `None` otherwise.  An external
library capability; modelled extensionally as the least `i < n` with
`a * i ≡ 1 (mod n)`, which is the unique inverse in `[0, n)` when one exists. -/
def mod_inverse (a n : Nat) : Option Nat :=
  (List.range n).find? fun i => a * i % n == 1 % n

/-- `ElgamalGroup`, from `src/keys.rs` (field order as in the source). -/
structure ElgamalGroup where
  g : Nat
  p : Nat
  q : Nat
deriving DecidableEq, Repr

/-- `ElgamalPublicKey`, from `src/keys.rs`. -/
structure ElgamalPublicKey where
  y : Nat
  group : ElgamalGroup
deriving DecidableEq, Repr

/-- `ElgamalPrivateKey`, from `src/keys.rs`. -/
structure ElgamalPrivateKey where
  x : Nat
  group : ElgamalGroup
  public : Option ElgamalPublicKey
deriving DecidableEq, Repr

/-- `ElgamalGroupElements::get_p` for `ElgamalGroup`. -/
def ElgamalGroup.get_p (G : ElgamalGroup) : Nat := G.p

/-- `ElgamalGroupElements::get_q` for `ElgamalGroup`. -/
def ElgamalGroup.get_q (G : ElgamalGroup) : Nat := G.q

/-- `ElgamalGroupElements::get_g` for `ElgamalGroup`. -/
def ElgamalGroup.get_g (G : ElgamalGroup) : Nat := G.g

/-- `ElgamalGroupElements::get_p` for `ElgamalPublicKey`. -/
def ElgamalPublicKey.get_p (key : ElgamalPublicKey) : Nat := key.group.get_p

/-- `ElgamalGroupElements::get_q` for `ElgamalPublicKey`. -/
def ElgamalPublicKey.get_q (key : ElgamalPublicKey) : Nat := key.group.get_q

/-- `ElgamalGroupElements::get_g` for `ElgamalPublicKey`. -/
def ElgamalPublicKey.get_g (key : ElgamalPublicKey) : Nat := key.group.get_g

/-- `ElgamalPublicKey::get_y`. -/
def ElgamalPublicKey.get_y (key : ElgamalPublicKey) : Nat := key.y

/-- `ElgamalGroupElements::get_p` for `ElgamalPrivateKey`. -/
def ElgamalPrivateKey.get_p (key : ElgamalPrivateKey) : Nat := key.group.get_p

/-- `ElgamalGroupElements::get_q` for `ElgamalPrivateKey`. -/
def ElgamalPrivateKey.get_q (key : ElgamalPrivateKey) : Nat := key.group.get_q

/-- `ElgamalGroupElements::get_g` for `ElgamalPrivateKey`. -/
def ElgamalPrivateKey.get_g (key : ElgamalPrivateKey) : Nat := key.group.get_g

/-- `ElgamalPrivateKey::get_x`. -/
def ElgamalPrivateKey.get_x (key : ElgamalPrivateKey) : Nat := key.x

/-- `encrypt_raw`, from `src/internal.rs` lines 13-21:
`(g.modpow(r, p), m * y.modpow(r, p))`.  Note the second component is not
reduced modulo `p`. -/
def encrypt_raw (m p y g r : Nat) : Nat × Nat :=
  (modpow g r p, m * modpow y r p)

/-- `decrypt_raw`, from `src/internal.rs` lines 24-35: the inverse of
`a^x mod p` times `b`, reduced modulo `p`. -/
def decrypt_raw (a b p x : Nat) : Result Nat :=
  match mod_inverse (modpow a x p) p with
  | none => .err .InvalidPrivateKey
  | some divider => .ok (divider * b % p)

/-- `encrypt`, from `src/internal.rs` lines 38-47, with the ephemeral
`r = rng.gen_biguint_range(1, q)` passed explicitly. -/
def encrypt (key : ElgamalPublicKey) (r m : Nat) : Nat × Nat :=
  encrypt_raw m key.get_p key.get_y key.get_g r

/-- `reencrypt`, from `src/internal.rs` lines 50-62, with the fresh
ephemeral `r` explicit: `(a1, b1) = encrypt_raw(b, ..); a1 *= a`. -/
def reencrypt (key : ElgamalPublicKey) (r a b : Nat) : Nat × Nat :=
  let ab1 := encrypt_raw b key.get_p key.get_y key.get_g r
  (ab1.1 * a, ab1.2)

/-- `decrypt`, from `src/internal.rs` lines 65-67. -/
def decrypt (key : ElgamalPrivateKey) (a b : Nat) : Result Nat :=
  decrypt_raw a b key.get_p key.get_x

/-- `verify`, from `src/internal.rs` lines 70-88. -/
def verify (key : ElgamalPublicKey) (h r s : Nat) : Result Unit :=
  if s > key.get_q ∨ r > key.get_p then .err .InvalidRange
  else
    let p := key.get_p
    let v1 := modpow key.get_y r p * modpow r s p % p
    let v2 := modpow key.get_g h p
    if v1 = v2 then .ok () else .err .Verification

/-- `sign`, from `src/internal.rs` lines 91-112, with the ephemeral
`k = rng.gen_biguint_range(1, q)` passed explicitly.  The branch on
`s1 > h` avoids BigUint underflow; `Nat` subtraction agrees with BigUint
subtraction on both branches because each branch only subtracts when the
minuend is at least as large. -/
def sign (key : ElgamalPrivateKey) (k h : Nat) : Result (Nat × Nat) :=
  let q := key.get_q
  let r := modpow key.get_g k key.get_p
  match mod_inverse k q with
  | none => .err .InvalidInverse
  | some reverse_k =>
    let s1 := key.get_x * r % q
    let s := if s1 > h then reverse_k * (q + h - s1) % q
             else reverse_k * (h - s1) % q
    .ok (r, s)

/-- `BigUint::to_bytes_be`: minimal-length big-endian bytes, `[0]` for zero.
Structured with an explicit fuel argument so that it evaluates by kernel
reduction; `fuel = n` always suffices since the value shrinks by a factor
of 256 each step. -/
def to_bytes_be_aux : Nat → Nat → List Nat
  | 0, _ => []
  | fuel + 1, n => if n = 0 then [] else to_bytes_be_aux fuel (n / 256) ++ [n % 256]

/-- `BigUint::to_bytes_be` (external library capability). -/
def to_bytes_be (n : Nat) : List Nat :=
  if n = 0 then [0] else to_bytes_be_aux n n

/-- `BigUint::from_bytes_be` (external library capability). -/
def from_bytes_be (l : List Nat) : Nat :=
  l.foldl (fun acc b => acc * 256 + b) 0

/-- `non_malleable_encrypt`, from `src/internal.rs` lines 116-143.  The
digest is modelled by `hash`, mapping the concatenation of all bytes fed
via `update` to the big-endian integer value of the finalized output; the
ephemerals `r, s ∈ [1, q)` are passed explicitly. -/
def non_malleable_encrypt (hash : List Nat → Nat) (key : ElgamalPublicKey)
    (r s m : Nat) : Nat × Nat × Nat × Nat :=
  let g := key.get_g
  let p := key.get_p
  let q := key.get_q
  let ab := encrypt_raw m p key.get_y g r
  let v := modpow g s p
  let c := hash (to_bytes_be v ++ to_bytes_be ab.1 ++ to_bytes_be ab.2) % q
  let d := (s + c * r) % q
  (ab.1, ab.2, c, d)

/-- `non_malleable_decrypt`, from `src/internal.rs` lines 147-182. -/
def non_malleable_decrypt (hash : List Nat → Nat) (key : ElgamalPrivateKey)
    (a b c d : Nat) : Result Nat :=
  let g := key.get_g
  let p := key.get_p
  let q := key.get_q
  match mod_inverse (modpow a c p) p with
  | none => .err .InvalidPrivateKey
  | some a_inverse =>
    let v := modpow g d p * a_inverse % p
    let v2 := hash (to_bytes_be v ++ to_bytes_be a ++ to_bytes_be b) % q
    if v2 ≠ c then .err .Verification
    else decrypt_raw a b p key.get_x

/-- `BigUint::bits`: bit length, 0 for zero.  Fuel-structured for kernel
evaluation; `fuel = n` suffices. -/
def bits_aux : Nat → Nat → Nat
  | 0, _ => 0
  | fuel + 1, n => if n = 0 then 0 else bits_aux fuel (n / 2) + 1

/-- `BigUint::bits` (external library capability). -/
def bits (n : Nat) : Nat := bits_aux n n

/-- `ElgamalPublicKey::verify`, from `src/keys.rs` lines 173-184:
odd-length signature buffers are rejected, otherwise the buffer is split
exactly in half into `(r, s)`. -/
def ElgamalPublicKey.verifyBytes (key : ElgamalPublicKey)
    (hashed sig : List Nat) : Result Unit :=
  if sig.length % 2 ≠ 0 then .err .InvalidData
  else
    let h := from_bytes_be hashed
    let r := from_bytes_be (sig.take (sig.length / 2))
    let s := from_bytes_be (sig.drop (sig.length / 2))
    verify key h r s

/-- `ElgamalPrivateKey::decrypt`, from `src/keys.rs` lines 189-201:
odd-length ciphertext buffers are rejected, otherwise the buffer is split
exactly in half into `(a, b)`. -/
def ElgamalPrivateKey.decryptBytes (key : ElgamalPrivateKey)
    (ciphertext : List Nat) : Result (List Nat) :=
  if ciphertext.length % 2 ≠ 0 then .err .InvalidData
  else
    let a := from_bytes_be (ciphertext.take (ciphertext.length / 2))
    let b := from_bytes_be (ciphertext.drop (ciphertext.length / 2))
    match decrypt key a b with
    | .err e => .err e
    | .ok m => .ok (to_bytes_be m)

/-- `ElgamalPrivateKey::sign`, from `src/keys.rs` lines 206-219.  The Rust
code does `let mut r = r.to_bytes_be(); let mut s = s.to_bytes_be();
r.append(&mut s); Ok(s)`.  `Vec::append` moves every element of `s` into
`r` and leaves `s` empty, so the function returns the drained (empty)
vector `s`, not the concatenation held in `r`.  The two bindings below
mirror that mutation sequence exactly. -/
def ElgamalPrivateKey.signBytes (key : ElgamalPrivateKey) (k : Nat)
    (hashed : List Nat) : Result (List Nat) :=
  let h := from_bytes_be hashed
  if bits h > bits key.get_p then .err .MessageTooLong
  else
    match sign key k h with
    | .err e => .err e
    | .ok rs =>
      let _r_appended := to_bytes_be rs.1 ++ to_bytes_be rs.2
      let s_drained : List Nat := []
      .ok s_drained

/-- The ElGamal object identifier `1.3.14.7.2.1.1`, from `src/formats.rs`,
as its arc sequence. -/
def ELGAMAL_OID : List Nat := [1, 3, 14, 7, 2, 1, 1]

/-- The DSA object identifier `1.2.840.10040.4.1`, from `src/formats.rs`. -/
def DSA_OID : List Nat := [1, 2, 840, 10040, 4, 1]

/-- `verify_algorithm_id`, from `src/formats.rs` lines 17-24. -/
def verify_algorithm_id (oid : List Nat) : Bool :=
  oid == ELGAMAL_OID || oid == DSA_OID

/-- `GroupParams`, from `src/formats.rs`: the integer fields as the
big-endian byte strings held by the DER container. -/
structure GroupParams where
  p : List Nat
  q : Option (List Nat)
  g : List Nat
deriving DecidableEq, Repr

/-- `KeyInfo`, from `src/formats.rs`, with the object identifier as its
arc sequence. -/
structure KeyInfo where
  algorithm : List Nat
  group_params : GroupParams
deriving DecidableEq, Repr

/-- `PublicKeyInfo`, from `src/formats.rs`. -/
structure PublicKeyInfo where
  info : KeyInfo
  y : List Nat
deriving DecidableEq, Repr

/-- `PrivateKeyInfo`, from `src/formats.rs`. -/
structure PrivateKeyInfo where
  version : Nat
  info : KeyInfo
  x : List Nat
deriving DecidableEq, Repr

/-- `TryFrom<PrivateKeyInfo> for ElgamalPrivateKey`, from `src/formats.rs`
lines 60-90.  When `q` is absent the source computes
`(&p - BigUint::one()) << 1`, a left shift, i.e. `(p - 1) * 2`. -/
def privateKeyTryFrom (pki : PrivateKeyInfo) : Result ElgamalPrivateKey :=
  if ¬ verify_algorithm_id pki.info.algorithm then .err .InvalidOID
  else if pki.version ≠ 0 then .err .PrivateKeyMalformed
  else
    let p := from_bytes_be pki.info.group_params.p
    let g := from_bytes_be pki.info.group_params.g
    let q := match pki.info.group_params.q with
      | none => (p - 1) <<< 1
      | some qb => from_bytes_be qb
    .ok ⟨from_bytes_be pki.x, ⟨g, p, q⟩, none⟩

/-- `TryFrom<PublicKeyInfo> for ElgamalPublicKey`, from `src/formats.rs`
lines 93-119, with the same `(p - 1) << 1` reconstruction of a missing `q`. -/
def publicKeyTryFrom (pki : PublicKeyInfo) : Result ElgamalPublicKey :=
  if ¬ verify_algorithm_id pki.info.algorithm then .err .InvalidOID
  else
    let p := from_bytes_be pki.info.group_params.p
    let g := from_bytes_be pki.info.group_params.g
    let q := match pki.info.group_params.q with
      | none => (p - 1) <<< 1
      | some qb => from_bytes_be qb
    .ok ⟨from_bytes_be pki.y, ⟨g, p, q⟩⟩

/-- The step-2 candidate adjustment of `elgamal_parameter_generation_type1`,
from `src/algorithms.rs` lines 75-79: starting from the sampled `L`-bit
candidate `t`, the code computes `module = q + q`, then
`p -= p.mod_floor(&module); p += 1`, i.e. `t - t % (q + q) + 1`. -/
def adjust_candidate (t q : Nat) : Nat := t - t % (q + q) + 1

/-- `key_generation`, from `src/algorithms.rs` lines 104-111, with the
sampled `x ∈ [1, q)` explicit. -/
def key_generation (group : ElgamalGroup) (x : Nat) : Nat × Nat :=
  (modpow group.get_g x group.get_p, x)

/-! ## Helper lemmas about the embedded library primitives -/

lemma mod_inverse_some {a n i : Nat} (h : mod_inverse a n = some i) :
    a * i % n = 1 % n ∧ i < n := by
  unfold mod_inverse at h
  have h1 := List.find?_some h
  have h2 := List.mem_of_find?_eq_some h
  exact ⟨by simpa using h1, by simpa using h2⟩

lemma mod_inverse_isSome_of_coprime {a n : Nat} (hn : 1 < n) (h : Nat.Coprime a n) :
    ∃ i, mod_inverse a n = some i := by
  obtain ⟨m, hm⟩ := Nat.exists_mul_emod_eq_one_of_coprime h hn
  have hlt : m % n < n := Nat.mod_lt _ (by omega)
  have hmod : a * (m % n) % n = 1 % n := by
    have h1 : a * (m % n) % n = a * m % n := Nat.ModEq.mul_left a (Nat.mod_modEq m n)
    rw [h1, hm, Nat.mod_eq_of_lt hn]
  unfold mod_inverse
  cases hfind : (List.range n).find? fun i => a * i % n == 1 % n with
  | some i => exact ⟨i, rfl⟩
  | none =>
    exfalso
    have h3 := List.find?_eq_none.mp hfind (m % n) (List.mem_range.mpr hlt)
    simp only [beq_iff_eq] at h3
    exact h3 hmod

lemma coprime_of_modEq {a b n : Nat} (hab : a ≡ b [MOD n]) (h : Nat.Coprime a n) :
    Nat.Coprime b n := by
  have hab2 : a % n = b % n := hab
  have hg : Nat.gcd a n = Nat.gcd b n := by
    rw [Nat.gcd_comm a n, Nat.gcd_comm b n, Nat.gcd_rec n a, Nat.gcd_rec n b, hab2]
  have h2 : Nat.gcd a n = 1 := h
  have h3 : Nat.gcd b n = 1 := by rw [← hg]; exact h2
  exact h3

lemma eq_of_modEq_of_lt {a b n : Nat} (h : a ≡ b [MOD n]) (ha : a < n) (hb : b < n) :
    a = b := by
  have h2 : a % n = b % n := h
  rwa [Nat.mod_eq_of_lt ha, Nat.mod_eq_of_lt hb] at h2

lemma pow_mod_period {g p q : Nat} (hg : g ^ q ≡ 1 [MOD p]) (a : Nat) :
    g ^ a ≡ g ^ (a % q) [MOD p] := by
  have e : g ^ a = (g ^ q) ^ (a / q) * g ^ (a % q) := by
    rw [← pow_mul, ← pow_add, Nat.div_add_mod]
  rw [e]
  simpa using Nat.ModEq.mul_right (g ^ (a % q)) (Nat.ModEq.pow (a / q) hg)

lemma pow_congr_exponent {g p q a b : Nat} (hg : g ^ q ≡ 1 [MOD p])
    (h : a % q = b % q) : g ^ a ≡ g ^ b [MOD p] := by
  have h1 := pow_mod_period hg a
  rw [h] at h1
  exact h1.trans (pow_mod_period hg b).symm

lemma not_dvd_of_pow_modEq_one {p g q : Nat} (hp : p.Prime) (hq : 0 < q)
    (hg : g ^ q ≡ 1 [MOD p]) : ¬ p ∣ g := by
  intro hdvd
  have h1 : p ∣ g ^ q := dvd_pow hdvd (by omega)
  have h2 : g ^ q % p = 0 := Nat.mod_eq_zero_of_dvd h1
  have h3 : g ^ q % p = 1 % p := hg
  have h4 : 1 % p = 1 := Nat.mod_eq_of_lt hp.one_lt
  omega

lemma modpow_modpow (g r x p : Nat) :
    modpow (modpow g r p) x p ≡ g ^ (r * x) [MOD p] := by
  have h1 : (modpow g r p) ^ x ≡ (g ^ r) ^ x [MOD p] :=
    Nat.ModEq.pow x (Nat.mod_modEq _ _)
  calc modpow (modpow g r p) x p
      ≡ (modpow g r p) ^ x [MOD p] := Nat.mod_modEq _ _
    _ ≡ (g ^ r) ^ x [MOD p] := h1
    _ = g ^ (r * x) := by rw [← pow_mul]

lemma modpow_of_eq_modpow {y g x r p : Nat} (hy : y = modpow g x p) :
    modpow y r p ≡ g ^ (x * r) [MOD p] := by
  rw [hy]; exact modpow_modpow g x r p

/-- Core decryption lemma: if `a^x mod p` is congruent to a unit power
`gg ^ e` and `b` is congruent to `m * gg ^ e`, then `decrypt_raw`
succeeds and recovers the canonical `m < p`. -/
lemma decrypt_raw_ok {p x a b m gg e : Nat} (hp : p.Prime) (hgp : ¬ p ∣ gg)
    (ht : modpow a x p ≡ gg ^ e [MOD p])
    (hb : b ≡ m * gg ^ e [MOD p]) (hm : m < p) :
    decrypt_raw a b p x = .ok m := by
  have hcop1 : Nat.Coprime (gg ^ e) p :=
    Nat.Coprime.pow_left _ ((Nat.Prime.coprime_iff_not_dvd hp).mpr hgp).symm
  have hcop : Nat.Coprime (modpow a x p) p := coprime_of_modEq ht.symm hcop1
  obtain ⟨i, hi⟩ := mod_inverse_isSome_of_coprime hp.one_lt hcop
  obtain ⟨hii, _⟩ := mod_inverse_some hi
  have hiimod : modpow a x p * i ≡ 1 [MOD p] := hii
  unfold decrypt_raw
  rw [hi]
  show Result.ok (i * b % p) = Result.ok m
  congr 1
  have hfin : i * b ≡ m [MOD p] := by
    calc i * b
        ≡ i * (m * gg ^ e) [MOD p] := Nat.ModEq.mul_left i hb
      _ ≡ i * (m * modpow a x p) [MOD p] :=
          Nat.ModEq.mul_left i (Nat.ModEq.mul_left m ht.symm)
      _ = m * (modpow a x p * i) := by ring
      _ ≡ m * 1 [MOD p] := Nat.ModEq.mul_left m hiimod
      _ = m := by ring
  have h2 : i * b % p = m % p := hfin
  rwa [Nat.mod_eq_of_lt hm] at h2

/-! ## Claim C1: encrypt/decrypt round trip -/

/-- C1, counterexample: the claim quantifies over every message with
`bit_length(m) ≤ bit_length(p)`, but that precondition also admits
messages `m ≥ p` of the same bit length.  For the valid key pair
`p = 23, q = 11, g = 2, x = 3, y = 8` and ephemeral `r = 4 ∈ [1, 11)`,
the message `m = 31` has `bits 31 = 5 = bits 23`, yet the round trip
returns `Ok(31 mod 23) = Ok(8)`, not `Ok(31)`. -/
theorem c1_counterexample :
    Nat.Prime 23 ∧ Nat.Prime 11 ∧ modpow 2 11 23 = 1 ∧ (8 : Nat) = modpow 2 3 23 ∧
    1 ≤ 4 ∧ 4 < 11 ∧ bits 31 ≤ bits 23 ∧
    decrypt ⟨3, ⟨2, 23, 11⟩, none⟩ (encrypt ⟨8, ⟨2, 23, 11⟩⟩ 4 31).1
      (encrypt ⟨8, ⟨2, 23, 11⟩⟩ 4 31).2 ≠ Result.ok 31 :=
  ⟨by norm_num, by norm_num, by decide, by decide, by decide, by decide, by decide,
    by decide⟩

/-- C1 (amended): for every valid key pair (`p` prime, `g^q ≡ 1 mod p`,
`y = g^x mod p`), every message `m < p` (strengthened from the claimed
`bit_length(m) ≤ bit_length(p)`, which also admits `m ∈ [p, 2^bits(p))`),
and every ephemeral `r ∈ [1, q)`, the internal decrypt applied to the
internal encrypt returns `Ok(m)`. -/
theorem c1_encrypt_decrypt_roundtrip (p q g x y m r : Nat) (hp : p.Prime)
    (hg : g ^ q % p = 1) (hy : y = modpow g x p) (hm : m < p)
    (hr1 : 1 ≤ r) (hrq : r < q) :
    decrypt ⟨x, ⟨g, p, q⟩, none⟩ (encrypt ⟨y, ⟨g, p, q⟩⟩ r m).1
      (encrypt ⟨y, ⟨g, p, q⟩⟩ r m).2 = Result.ok m := by
  have hp1 : 1 < p := hp.one_lt
  have hgmod : g ^ q ≡ 1 [MOD p] := by
    show g ^ q % p = 1 % p
    rw [hg, Nat.mod_eq_of_lt hp1]
  have hgp : ¬ p ∣ g := not_dvd_of_pow_modEq_one hp (by omega) hgmod
  show decrypt_raw (modpow g r p) (m * modpow y r p) p x = Result.ok m
  have h1 : modpow (modpow g r p) x p ≡ g ^ (x * r) [MOD p] := by
    have h0 := modpow_modpow g r x p
    rwa [Nat.mul_comm r x] at h0
  have h2 : m * modpow y r p ≡ m * g ^ (x * r) [MOD p] :=
    Nat.ModEq.mul_left m (modpow_of_eq_modpow hy)
  exact decrypt_raw_ok hp hgp h1 h2 hm

/-- Witness for C1 at the concrete key pair `p = 23, q = 11, g = 2, x = 3,
y = 8`, message `m = 5`, ephemeral `r = 4`. -/
theorem c1_encrypt_decrypt_roundtrip_witness :
    Nat.Prime 23 ∧ modpow 2 11 23 = 1 ∧ (8 : Nat) = modpow 2 3 23 ∧ 5 < 23 ∧
    1 ≤ 4 ∧ 4 < 11 ∧
    decrypt ⟨3, ⟨2, 23, 11⟩, none⟩ (encrypt ⟨8, ⟨2, 23, 11⟩⟩ 4 5).1
      (encrypt ⟨8, ⟨2, 23, 11⟩⟩ 4 5).2 = Result.ok 5 :=
  ⟨by norm_num, by decide, by decide, by decide, by decide, by decide,
    c1_encrypt_decrypt_roundtrip 23 11 2 3 8 5 4 (by norm_num) (by decide) (by decide)
      (by decide) (by decide) (by decide)⟩

/-! ## Claim C4: ciphertext component invariants -/

/-- C4, counterexample: the second ciphertext component is not reduced
modulo `p`.  With the valid key pair `p = 23, q = 11, g = 2, y = 8`,
ephemeral `r = 4 ∈ [1, 11)` and in-range message `m = 22 < 23`, the
produced `b = 22 * (8^4 mod 23) = 44` is not below `p` and differs from
the claimed `(m * (y^r mod p)) mod p = 21`. -/
theorem c4_counterexample :
    Nat.Prime 23 ∧ modpow 2 11 23 = 1 ∧ (8 : Nat) = modpow 2 3 23 ∧ 1 ≤ 4 ∧ 4 < 11 ∧
    ¬ ((encrypt ⟨8, ⟨2, 23, 11⟩⟩ 4 22).2 < 23) ∧
    (encrypt ⟨8, ⟨2, 23, 11⟩⟩ 4 22).2 ≠ 22 * modpow 8 4 23 % 23 :=
  ⟨by norm_num, by decide, by decide, by decide, by decide, by decide, by decide⟩

/-- C4 (amended): every ciphertext pair `(a, b)` produced by `encrypt`
with ephemeral `r` satisfies `a < p` with `a = g^r mod p`, while
`b = m * (y^r mod p)` is the unreduced product, which can be `≥ p` (the
final reduction happens only inside `decrypt_raw`). -/
theorem c4_ciphertext_shape (y g p q r m : Nat) (hp : 0 < p) :
    (encrypt ⟨y, ⟨g, p, q⟩⟩ r m).1 < p ∧
    (encrypt ⟨y, ⟨g, p, q⟩⟩ r m).1 = g ^ r % p ∧
    (encrypt ⟨y, ⟨g, p, q⟩⟩ r m).2 = m * (y ^ r % p) :=
  ⟨Nat.mod_lt _ hp, rfl, rfl⟩

/-- Witness for C4 at the concrete key pair `p = 23, q = 11, g = 2, y = 8`,
`r = 4`, `m = 5`. -/
theorem c4_ciphertext_shape_witness :
    0 < 23 ∧ ((encrypt ⟨8, ⟨2, 23, 11⟩⟩ 4 5).1 < 23 ∧
      (encrypt ⟨8, ⟨2, 23, 11⟩⟩ 4 5).1 = 2 ^ 4 % 23 ∧
      (encrypt ⟨8, ⟨2, 23, 11⟩⟩ 4 5).2 = 5 * (8 ^ 4 % 23)) :=
  ⟨by decide, c4_ciphertext_shape 8 2 23 11 4 5 (by decide)⟩

/-! ## Claim C5: re-encryption preserves the plaintext -/

/-- C5, counterexample: as for C1, the bit-length precondition admits
`m = 31 ≥ p = 23`, for which the re-encryption round trip returns
`Ok(31 mod 23) = Ok(8)`, not `Ok(31)`, with ephemerals `r = 4` and
`r2 = 7`, both in `[1, 11)`. -/
theorem c5_counterexample :
    Nat.Prime 23 ∧ Nat.Prime 11 ∧ modpow 2 11 23 = 1 ∧ (8 : Nat) = modpow 2 3 23 ∧
    1 ≤ 4 ∧ 4 < 11 ∧ 1 ≤ 7 ∧ 7 < 11 ∧ bits 31 ≤ bits 23 ∧
    (let ab := encrypt ⟨8, ⟨2, 23, 11⟩⟩ 4 31
     let ab2 := reencrypt ⟨8, ⟨2, 23, 11⟩⟩ 7 ab.1 ab.2
     decrypt ⟨3, ⟨2, 23, 11⟩, none⟩ ab2.1 ab2.2) ≠ Result.ok 31 :=
  ⟨by norm_num, by norm_num, by decide, by decide, by decide, by decide, by decide,
    by decide, by decide, by decide⟩

/-- C5 (amended): for every valid key pair, every message `m < p`
(strengthened from the claimed bit-length bound, as for C1), and every
pair of ephemerals `r, r2 ∈ [1, q)`, decrypting the re-encryption of the
encryption of `m` returns `Ok(m)`. -/
theorem c5_reencrypt_roundtrip (p q g x y m r r2 : Nat) (hp : p.Prime)
    (hg : g ^ q % p = 1) (hy : y = modpow g x p) (hm : m < p)
    (hr1 : 1 ≤ r) (hrq : r < q) (hr21 : 1 ≤ r2) (hr2q : r2 < q) :
    (let ab := encrypt ⟨y, ⟨g, p, q⟩⟩ r m
     let ab2 := reencrypt ⟨y, ⟨g, p, q⟩⟩ r2 ab.1 ab.2
     decrypt ⟨x, ⟨g, p, q⟩, none⟩ ab2.1 ab2.2) = Result.ok m := by
  have hp1 : 1 < p := hp.one_lt
  have hgmod : g ^ q ≡ 1 [MOD p] := by
    show g ^ q % p = 1 % p
    rw [hg, Nat.mod_eq_of_lt hp1]
  have hgp : ¬ p ∣ g := not_dvd_of_pow_modEq_one hp (by omega) hgmod
  show decrypt_raw (modpow g r2 p * modpow g r p) (m * modpow y r p * modpow y r2 p) p x
    = Result.ok m
  have hA : modpow g r2 p ≡ g ^ r2 [MOD p] := Nat.mod_modEq _ _
  have hB : modpow g r p ≡ g ^ r [MOD p] := Nat.mod_modEq _ _
  have ht : modpow (modpow g r2 p * modpow g r p) x p ≡ g ^ ((r2 + r) * x) [MOD p] := by
    calc modpow (modpow g r2 p * modpow g r p) x p
        ≡ (modpow g r2 p * modpow g r p) ^ x [MOD p] := Nat.mod_modEq _ _
      _ ≡ (g ^ r2 * g ^ r) ^ x [MOD p] := Nat.ModEq.pow x (hA.mul hB)
      _ = g ^ ((r2 + r) * x) := by rw [← pow_add, ← pow_mul]
  have hexp : x * r + x * r2 = (r2 + r) * x := by ring
  have hb : m * modpow y r p * modpow y r2 p ≡ m * g ^ ((r2 + r) * x) [MOD p] := by
    calc m * modpow y r p * modpow y r2 p
        ≡ m * g ^ (x * r) * g ^ (x * r2) [MOD p] :=
          (Nat.ModEq.mul_left m (modpow_of_eq_modpow hy)).mul (modpow_of_eq_modpow hy)
      _ = m * g ^ ((r2 + r) * x) := by rw [mul_assoc, ← pow_add, hexp]
  exact decrypt_raw_ok hp hgp ht hb hm

/-- Witness for C5 at the concrete key pair `p = 23, q = 11, g = 2, x = 3,
y = 8`, message `m = 5`, ephemerals `r = 4`, `r2 = 7`. -/
theorem c5_reencrypt_roundtrip_witness :
    Nat.Prime 23 ∧ modpow 2 11 23 = 1 ∧ (8 : Nat) = modpow 2 3 23 ∧ 5 < 23 ∧
    1 ≤ 4 ∧ 4 < 11 ∧ 1 ≤ 7 ∧ 7 < 11 ∧
    (let ab := encrypt ⟨8, ⟨2, 23, 11⟩⟩ 4 5
     let ab2 := reencrypt ⟨8, ⟨2, 23, 11⟩⟩ 7 ab.1 ab.2
     decrypt ⟨3, ⟨2, 23, 11⟩, none⟩ ab2.1 ab2.2) = Result.ok 5 :=
  ⟨by norm_num, by decide, by decide, by decide, by decide, by decide, by decide,
    by decide,
    c5_reencrypt_roundtrip 23 11 2 3 8 5 4 7 (by norm_num) (by decide) (by decide)
      (by decide) (by decide) (by decide) (by decide) (by decide)⟩

/-! ## Claim C6: signature round trip -/

/-- C6 (confirmed): for every valid key pair (`p`, `q` prime,
`g^q ≡ 1 mod p`, `y = g^x mod p`, `x ∈ [1, q)`), every hash value `h`,
and every ephemeral `k ∈ [1, q)` (for which the inverse modulo the prime
`q` automatically exists), `sign` returns `Ok((r, s))` and `verify`
accepts; moreover `x*r + k*s ≡ h (mod q)`, which is exactly the
branch-independent identity `s = k⁻¹ (h − x r) mod q`. -/
theorem c6_sign_verify_roundtrip (p q g x y k h : Nat) (hp : p.Prime)
    (hqp : q.Prime) (hg : g ^ q % p = 1) (hy : y = modpow g x p)
    (hx1 : 1 ≤ x) (hxq : x < q) (hk1 : 1 ≤ k) (hkq : k < q) :
    ∃ r s, sign ⟨x, ⟨g, p, q⟩, none⟩ k h = Result.ok (r, s) ∧
      verify ⟨y, ⟨g, p, q⟩⟩ h r s = Result.ok () ∧
      (x * r + k * s) % q = h % q := by
  have hp1 : 1 < p := hp.one_lt
  have hq1 : 1 < q := hqp.one_lt
  have hgmod : g ^ q ≡ 1 [MOD p] := by
    show g ^ q % p = 1 % p
    rw [hg, Nat.mod_eq_of_lt hp1]
  have hcop : Nat.Coprime k q := by
    have hnd : ¬ q ∣ k := by
      intro hdvd
      have := Nat.le_of_dvd (by omega) hdvd
      omega
    exact ((Nat.Prime.coprime_iff_not_dvd hqp).mpr hnd).symm
  obtain ⟨ki, hki⟩ := mod_inverse_isSome_of_coprime hq1 hcop
  obtain ⟨hki1, _⟩ := mod_inverse_some hki
  have hkimod : k * ki ≡ 1 [MOD q] := hki1
  have hsign : sign ⟨x, ⟨g, p, q⟩, none⟩ k h =
      Result.ok (modpow g k p,
        if x * modpow g k p % q > h then ki * (q + h - x * modpow g k p % q) % q
        else ki * (h - x * modpow g k p % q) % q) := by
    simp only [sign, ElgamalPrivateKey.get_q, ElgamalPrivateKey.get_g,
      ElgamalPrivateKey.get_p, ElgamalPrivateKey.get_x, ElgamalGroup.get_q,
      ElgamalGroup.get_g, ElgamalGroup.get_p, hki]
  set R := modpow g k p with hR
  set S1 := x * R % q with hS1
  set S := (if S1 > h then ki * (q + h - S1) % q else ki * (h - S1) % q) with hS
  have hS1lt : S1 < q := Nat.mod_lt _ (by omega)
  have hSlt : S < q := by
    rw [hS]; split <;> exact Nat.mod_lt _ (by omega)
  have hRlt : R < p := Nat.mod_lt _ (by omega)
  have hxr : x * R ≡ S1 [MOD q] := (Nat.mod_modEq (x * R) q).symm
  have hmain : (x * R + k * S) % q = h % q := by
    rcases Nat.lt_or_ge h S1 with hcase | hcase
    · have hSeq : S = ki * (q + h - S1) % q := by rw [hS, if_pos hcase]
      have hks : k * S ≡ q + h - S1 [MOD q] := by
        calc k * S ≡ k * (ki * (q + h - S1)) [MOD q] := by
              rw [hSeq]; exact Nat.ModEq.mul_left k (Nat.mod_modEq _ _)
          _ = k * ki * (q + h - S1) := by ring
          _ ≡ 1 * (q + h - S1) [MOD q] := Nat.ModEq.mul_right _ hkimod
          _ = q + h - S1 := by ring
      have hsum : x * R + k * S ≡ S1 + (q + h - S1) [MOD q] := hxr.add hks
      have he : S1 + (q + h - S1) = q + h := by omega
      rw [he] at hsum
      have hfin : x * R + k * S ≡ h [MOD q] :=
        hsum.trans (Nat.add_mod_left q h)
      exact hfin
    · have hSeq : S = ki * (h - S1) % q := by
        rw [hS, if_neg (by omega)]
      have hks : k * S ≡ h - S1 [MOD q] := by
        calc k * S ≡ k * (ki * (h - S1)) [MOD q] := by
              rw [hSeq]; exact Nat.ModEq.mul_left k (Nat.mod_modEq _ _)
          _ = k * ki * (h - S1) := by ring
          _ ≡ 1 * (h - S1) [MOD q] := Nat.ModEq.mul_right _ hkimod
          _ = h - S1 := by ring
      have hsum : x * R + k * S ≡ S1 + (h - S1) [MOD q] := hxr.add hks
      have he : S1 + (h - S1) = h := by omega
      rwa [he] at hsum
  have hv : modpow y R p * modpow R S p % p = modpow g h p := by
    have h2 : modpow R S p ≡ g ^ (k * S) [MOD p] := by
      rw [hR]; exact modpow_modpow g k S p
    have h6 : modpow y R p * modpow R S p ≡ modpow g h p [MOD p] := by
      calc modpow y R p * modpow R S p
          ≡ g ^ (x * R) * g ^ (k * S) [MOD p] := (modpow_of_eq_modpow hy).mul h2
        _ = g ^ (x * R + k * S) := (pow_add g _ _).symm
        _ ≡ g ^ h [MOD p] := pow_congr_exponent hgmod hmain
        _ ≡ modpow g h p [MOD p] := (Nat.mod_modEq _ _).symm

    have h8 : modpow y R p * modpow R S p % p = modpow g h p % p := h6
    have h9 : modpow g h p % p = modpow g h p := by
      show g ^ h % p % p = g ^ h % p
      exact Nat.mod_mod _ _
    rwa [h9] at h8
  have hver : verify ⟨y, ⟨g, p, q⟩⟩ h R S = Result.ok () := by
    unfold verify
    simp only [ElgamalPublicKey.get_q, ElgamalPublicKey.get_g, ElgamalPublicKey.get_p,
      ElgamalPublicKey.get_y, ElgamalGroup.get_q, ElgamalGroup.get_g, ElgamalGroup.get_p]
    rw [if_neg (by omega), if_pos hv]
  exact ⟨R, S, hsign, hver, hmain⟩

/-- Witness for C6 at the concrete key pair `p = 23, q = 11, g = 2, x = 3,
y = 8`, ephemeral `k = 4`, hash value `h = 5`. -/
theorem c6_sign_verify_roundtrip_witness :
    Nat.Prime 23 ∧ Nat.Prime 11 ∧ modpow 2 11 23 = 1 ∧ (8 : Nat) = modpow 2 3 23 ∧
    1 ≤ 3 ∧ 3 < 11 ∧ 1 ≤ 4 ∧ 4 < 11 ∧
    (∃ r s, sign ⟨3, ⟨2, 23, 11⟩, none⟩ 4 5 = Result.ok (r, s) ∧
      verify ⟨8, ⟨2, 23, 11⟩⟩ 5 r s = Result.ok () ∧
      (3 * r + 4 * s) % 11 = 5 % 11) :=
  ⟨by norm_num, by norm_num, by decide, by decide, by decide, by decide, by decide,
    by decide,
    c6_sign_verify_roundtrip 23 11 2 3 8 4 5 (by norm_num) (by norm_num) (by decide)
      (by decide) (by decide) (by decide) (by decide) (by decide)⟩

/-! ## Claim C7: non-malleable round trip -/

/-- C7, counterexample: as for C1, the bit-length precondition admits
`m = 31 ≥ p = 23`; with the deterministic digest that hashes everything
to `0`, the honestly generated 4-tuple passes the challenge check but
decrypts to `Ok(31 mod 23) = Ok(8)`, not `Ok(31)`. -/
theorem c7_counterexample :
    Nat.Prime 23 ∧ Nat.Prime 11 ∧ modpow 2 11 23 = 1 ∧ (8 : Nat) = modpow 2 3 23 ∧
    1 ≤ 4 ∧ 4 < 11 ∧ 1 ≤ 5 ∧ 5 < 11 ∧ bits 31 ≤ bits 23 ∧
    (let abcd := non_malleable_encrypt (fun _ => 0) ⟨8, ⟨2, 23, 11⟩⟩ 4 5 31
     non_malleable_decrypt (fun _ => 0) ⟨3, ⟨2, 23, 11⟩, none⟩ abcd.1 abcd.2.1
       abcd.2.2.1 abcd.2.2.2) ≠ Result.ok 31 :=
  ⟨by norm_num, by norm_num, by decide, by decide, by decide, by decide, by decide,
    by decide, by decide, by decide⟩

/-- C7 (amended): for every valid key pair, every message `m < p`
(strengthened from the claimed bit-length bound, as for C1), every pair
of ephemerals `r, s ∈ [1, q)`, and any deterministic digest function, the
non-malleable decrypt of the non-malleable encrypt of `m` recomputes the
stored challenge `c` and returns `Ok(m)`. -/
theorem c7_nonmalleable_roundtrip (hash : List Nat → Nat) (p q g x y m r s a b c d : Nat)
    (hp : p.Prime) (hg : g ^ q % p = 1) (hy : y = modpow g x p) (hm : m < p)
    (hr1 : 1 ≤ r) (hrq : r < q) (hs1 : 1 ≤ s) (hsq : s < q)
    (henc : non_malleable_encrypt hash ⟨y, ⟨g, p, q⟩⟩ r s m = (a, b, c, d)) :
    non_malleable_decrypt hash ⟨x, ⟨g, p, q⟩, none⟩ a b c d = Result.ok m := by
  have hp1 : 1 < p := hp.one_lt
  have hgmod : g ^ q ≡ 1 [MOD p] := by
    show g ^ q % p = 1 % p
    rw [hg, Nat.mod_eq_of_lt hp1]
  have hgp : ¬ p ∣ g := not_dvd_of_pow_modEq_one hp (by omega) hgmod
  simp only [non_malleable_encrypt, encrypt_raw, ElgamalPublicKey.get_q,
    ElgamalPublicKey.get_g, ElgamalPublicKey.get_p, ElgamalPublicKey.get_y,
    ElgamalGroup.get_q, ElgamalGroup.get_g, ElgamalGroup.get_p,
    Prod.mk.injEq] at henc
  obtain ⟨ha, hb, hc, hd⟩ := henc
  subst ha hb hc hd
  set A := modpow g r p with hA
  set B := m * modpow y r p with hB
  set V := modpow g s p with hV
  set C := hash (to_bytes_be V ++ to_bytes_be A ++ to_bytes_be B) % q with hC
  set D := (s + C * r) % q with hD
  have hq1 : 0 < q := by omega
  have ht : modpow A C p ≡ g ^ (r * C) [MOD p] := by
    rw [hA]; exact modpow_modpow g r C p
  have htcop : Nat.Coprime (modpow A C p) p := by
    have hcop1 : Nat.Coprime (g ^ (r * C)) p :=
      Nat.Coprime.pow_left _ ((Nat.Prime.coprime_iff_not_dvd hp).mpr hgp).symm
    exact coprime_of_modEq ht.symm hcop1
  obtain ⟨ai, hai⟩ := mod_inverse_isSome_of_coprime hp.one_lt htcop
  obtain ⟨hai1, _⟩ := mod_inverse_some hai
  have haimod : modpow A C p * ai ≡ 1 [MOD p] := hai1
  have hVd : modpow g D p * ai % p = V := by
    have hDq : D % q = (s + C * r) % q := by rw [hD]; exact Nat.mod_mod _ _
    have hgD : g ^ D ≡ g ^ (s + C * r) [MOD p] := pow_congr_exponent hgmod hDq
    have hchain : modpow g D p * ai * modpow A C p ≡ V * modpow A C p [MOD p] := by
      calc modpow g D p * ai * modpow A C p
          ≡ g ^ D * ai * modpow A C p [MOD p] :=
            Nat.ModEq.mul_right _ (Nat.ModEq.mul_right ai (Nat.mod_modEq _ _))
        _ = g ^ D * (modpow A C p * ai) := by ring
        _ ≡ g ^ D * 1 [MOD p] := Nat.ModEq.mul_left _ haimod
        _ = g ^ D := by ring
        _ ≡ g ^ (s + C * r) [MOD p] := hgD
        _ = g ^ s * g ^ (r * C) := by rw [pow_add]; ring_nf
        _ ≡ V * modpow A C p [MOD p] := ((Nat.mod_modEq _ _).symm).mul ht.symm
    have hcan : modpow g D p * ai ≡ V [MOD p] :=
      Nat.ModEq.cancel_right_of_coprime (by rw [Nat.gcd_comm]; exact htcop) hchain
    have hlt1 : modpow g D p * ai % p < p := Nat.mod_lt _ (by omega)
    have hlt2 : V < p := by rw [hV]; exact Nat.mod_lt _ (by omega)
    have hmodeq : modpow g D p * ai % p ≡ V [MOD p] :=
      (Nat.mod_modEq _ _).trans hcan
    exact eq_of_modEq_of_lt hmodeq hlt1 hlt2
  have hdec : decrypt_raw A B p x = Result.ok m := by
    have ht2 : modpow A x p ≡ g ^ (x * r) [MOD p] := by
      rw [hA]
      have h0 := modpow_modpow g r x p
      rwa [Nat.mul_comm r x] at h0
    have hb2 : B ≡ m * g ^ (x * r) [MOD p] := by
      rw [hB]
      exact Nat.ModEq.mul_left m (modpow_of_eq_modpow hy)
    exact decrypt_raw_ok hp hgp ht2 hb2 hm
  show (match mod_inverse (modpow A C p) p with
    | none => Result.err Error.InvalidPrivateKey
    | some a_inverse =>
      let v := modpow g D p * a_inverse % p
      let v2 := hash (to_bytes_be v ++ to_bytes_be A ++ to_bytes_be B) % q
      if v2 ≠ C then Result.err Error.Verification
      else decrypt_raw A B p x) = Result.ok m
  rw [hai]
  show (if hash (to_bytes_be (modpow g D p * ai % p) ++ to_bytes_be A ++ to_bytes_be B) % q ≠ C
    then Result.err Error.Verification else decrypt_raw A B p x) = Result.ok m
  rw [hVd, if_neg (not_ne_iff.mpr hC.symm)]
  exact hdec

/-- Witness for C7 at the concrete key pair `p = 23, q = 11, g = 2, x = 3,
y = 8`, message `m = 5`, ephemerals `r = 4, s = 5`, digest constantly 0. -/
theorem c7_nonmalleable_roundtrip_witness :
    Nat.Prime 23 ∧ modpow 2 11 23 = 1 ∧ (8 : Nat) = modpow 2 3 23 ∧ 5 < 23 ∧
    1 ≤ 4 ∧ 4 < 11 ∧ 1 ≤ 5 ∧ 5 < 11 ∧
    non_malleable_encrypt (fun _ => 0) ⟨8, ⟨2, 23, 11⟩⟩ 4 5 5 = (16, 10, 0, 5) ∧
    non_malleable_decrypt (fun _ => 0) ⟨3, ⟨2, 23, 11⟩, none⟩ 16 10 0 5 = Result.ok 5 :=
  ⟨by norm_num, by decide, by decide, by decide, by decide, by decide, by decide,
    by decide, by decide,
    c7_nonmalleable_roundtrip (fun _ => 0) 23 11 2 3 8 5 4 5 16 10 0 5 (by norm_num)
      (by decide) (by decide) (by decide) (by decide) (by decide) (by decide)
      (by decide) (by decide)⟩

/-! ## Claim C2: byte-level sign output -/

/-- C2: the byte-level `ElgamalPrivateKey::sign` does `r.append(&mut s);
Ok(s)`, and `Vec::append` drains `s`, so the function returns the empty
vector instead of the claimed concatenation of the big-endian bytes of
`r` and `s`.  At the key pair `p = 23, q = 11, g = 2, x = 3`, ephemeral
`k = 4` and hash bytes `[5]`, the internal sign yields `(r, s) = (16, 3)`
whose claimed serialization is `[16, 3]`, yet the function returns
`Ok([])`. -/
theorem c2_sign_bytes_returns_empty :
    ElgamalPrivateKey.signBytes ⟨3, ⟨2, 23, 11⟩, none⟩ 4 [5] = Result.ok [] ∧
    sign ⟨3, ⟨2, 23, 11⟩, none⟩ 4 5 = Result.ok (16, 3) ∧
    to_bytes_be 16 ++ to_bytes_be 3 = [16, 3] ∧
    ([] : List Nat) ≠ [16, 3] := by decide

/-! ## Claim C3: reconstruction of an omitted group order -/

/-- C3: on a container omitting `q`, both decoders compute
`(&p - BigUint::one()) << 1`, i.e. `(p - 1) * 2`, not the claimed
`(p - 1) / 2`.  For `p = 23` the reconstructed `q` is `44`, while the
claim requires `11`. -/
theorem c3_q_reconstruction_doubles :
    privateKeyTryFrom ⟨0, ⟨ELGAMAL_OID, ⟨[23], none, [2]⟩⟩, [3]⟩
      = Result.ok ⟨3, ⟨2, 23, 44⟩, none⟩ ∧
    publicKeyTryFrom ⟨⟨ELGAMAL_OID, ⟨[23], none, [2]⟩⟩, [8]⟩
      = Result.ok ⟨8, ⟨2, 23, 44⟩⟩ ∧
    (44 : Nat) = (23 - 1) * 2 ∧ (44 : Nat) ≠ (23 - 1) / 2 := by decide

/-! ## Claim C8: the step-2 candidate adjustment -/

/-- C8, counterexample: the code rounds the sampled candidate down to the
previous multiple of `2q` and adds one, so the adjusted value can lie
below `t`: for `t = 10, q = 2` the adjusted candidate is `9 < 10`,
falsifying the claimed "at or above `t`". -/
theorem c8_counterexample :
    0 < 2 ∧ adjust_candidate 10 2 % (2 + 2) = 1 % (2 + 2) ∧
    ¬ (10 ≤ adjust_candidate 10 2) := by decide

/-- C8 (amended): for every sampled candidate `t` and every positive `q`,
the adjusted candidate `t - t % 2q + 1` is congruent to `1 (mod 2q)`, is
at most `t + 1`, and is the largest value congruent to `1 (mod 2q)` that
is at most `t + 1` (the code shifts down to the previous multiple of
`2q`, not up to the next value at or above `t`). -/
theorem c8_adjusted_candidate (t q : Nat) (hq : 0 < q) :
    adjust_candidate t q % (q + q) = 1 % (q + q) ∧
    adjust_candidate t q ≤ t + 1 ∧
    ∀ v, v % (q + q) = 1 % (q + q) → v ≤ t + 1 → v ≤ adjust_candidate t q := by
  have hM : 0 < q + q := by omega
  have hdm := Nat.div_add_mod t (q + q)
  have h1le : t % (q + q) ≤ t := Nat.mod_le _ _
  have h1M : 1 % (q + q) = 1 := Nat.mod_eq_of_lt (by omega)
  refine ⟨?_, by unfold adjust_candidate; omega, ?_⟩
  · have hsplit : t - t % (q + q) = (q + q) * (t / (q + q)) := by omega
    rw [adjust_candidate, hsplit, Nat.mul_add_mod]
  · intro v hv hvle
    rw [h1M] at hv
    have hdmv := Nat.div_add_mod v (q + q)
    have hveq : (q + q) * (v / (q + q)) + 1 = v := by omega
    have hle2 : v / (q + q) * (q + q) ≤ t := by
      have : (q + q) * (v / (q + q)) ≤ t := by omega
      rwa [Nat.mul_comm] at this
    have hdiv : v / (q + q) ≤ t / (q + q) := (Nat.le_div_iff_mul_le hM).mpr hle2
    have hmul : (q + q) * (v / (q + q)) ≤ (q + q) * (t / (q + q)) :=
      mul_le_mul_left' hdiv (q + q)
    unfold adjust_candidate
    omega

/-- Witness for C8 at `t = 10, q = 2`: the adjusted candidate is `9`. -/
theorem c8_adjusted_candidate_witness :
    0 < 2 ∧ (adjust_candidate 10 2 % (2 + 2) = 1 % (2 + 2) ∧
      adjust_candidate 10 2 ≤ 10 + 1 ∧
      ∀ v, v % (2 + 2) = 1 % (2 + 2) → v ≤ 10 + 1 → v ≤ adjust_candidate 10 2) :=
  ⟨by decide, c8_adjusted_candidate 10 2 (by decide)⟩

/-! ## Claim C9: odd-length rejection and even split -/

/-- C9 (confirmed): for any keys and any buffers, the byte-level decrypt
and verify reject an odd-length buffer with `InvalidData` regardless of
its contents, and on an even-length buffer of length `2n` they proceed on
the big-endian values of the first `n` and last `n` bytes. -/
theorem c9_length_split (priv : ElgamalPrivateKey) (pub : ElgamalPublicKey)
    (o e hashed : List Nat) (n : Nat) (ho : o.length % 2 = 1)
    (he : e.length = 2 * n) :
    priv.decryptBytes o = Result.err Error.InvalidData ∧
    pub.verifyBytes hashed o = Result.err Error.InvalidData ∧
    priv.decryptBytes e =
      (match decrypt priv (from_bytes_be (e.take n)) (from_bytes_be (e.drop n)) with
        | .err er => Result.err er
        | .ok m => Result.ok (to_bytes_be m)) ∧
    pub.verifyBytes hashed e =
      verify pub (from_bytes_be hashed) (from_bytes_be (e.take n))
        (from_bytes_be (e.drop n)) := by
  have ho2 : o.length % 2 ≠ 0 := by omega
  have he2 : ¬ e.length % 2 ≠ 0 := by omega
  have hn : e.length / 2 = n := by omega
  refine ⟨?_, ?_, ?_, ?_⟩
  · unfold ElgamalPrivateKey.decryptBytes
    rw [if_pos ho2]
  · unfold ElgamalPublicKey.verifyBytes
    rw [if_pos ho2]
  · unfold ElgamalPrivateKey.decryptBytes
    rw [if_neg he2, hn]
  · unfold ElgamalPublicKey.verifyBytes
    rw [if_neg he2, hn]

/-- Witness for C9 with the odd buffer `[1]`, the even buffer `[16, 10]`
(`n = 1`), hash bytes `[5]`, and the toy key pair. -/
theorem c9_length_split_witness :
    ([1] : List Nat).length % 2 = 1 ∧ ([16, 10] : List Nat).length = 2 * 1 ∧
    (ElgamalPrivateKey.decryptBytes ⟨3, ⟨2, 23, 11⟩, none⟩ [1]
        = Result.err Error.InvalidData ∧
      ElgamalPublicKey.verifyBytes ⟨8, ⟨2, 23, 11⟩⟩ [5] [1]
        = Result.err Error.InvalidData ∧
      ElgamalPrivateKey.decryptBytes ⟨3, ⟨2, 23, 11⟩, none⟩ [16, 10] =
        (match decrypt ⟨3, ⟨2, 23, 11⟩, none⟩
            (from_bytes_be (([16, 10] : List Nat).take 1))
            (from_bytes_be (([16, 10] : List Nat).drop 1)) with
          | .err er => Result.err er
          | .ok m => Result.ok (to_bytes_be m)) ∧
      ElgamalPublicKey.verifyBytes ⟨8, ⟨2, 23, 11⟩⟩ [5] [16, 10] =
        verify ⟨8, ⟨2, 23, 11⟩⟩ (from_bytes_be [5])
          (from_bytes_be (([16, 10] : List Nat).take 1))
          (from_bytes_be (([16, 10] : List Nat).drop 1))) :=
  ⟨by decide, by decide,
    c9_length_split ⟨3, ⟨2, 23, 11⟩, none⟩ ⟨8, ⟨2, 23, 11⟩⟩ [1] [16, 10] [5] 1
      (by decide) (by decide)⟩

/-! ## Claim C10: successful decryption outputs are canonical -/

/-- C10 (confirmed): for every private key with `p > 0` and all inputs,
whenever `decrypt` or `non_malleable_decrypt` returns `Ok(m)`, the value
satisfies `m < p`, because the returned value is reduced modulo `p` as
the last step, even when the supplied `b` is not reduced. -/
theorem c10_canonical_output (key : ElgamalPrivateKey) (hash : List Nat → Nat)
    (a b c d : Nat) (hp : 0 < key.get_p) :
    (∀ m, decrypt key a b = Result.ok m → m < key.get_p) ∧
    (∀ m, non_malleable_decrypt hash key a b c d = Result.ok m → m < key.get_p) := by
  have hraw : ∀ u v m, decrypt_raw u v key.get_p key.get_x = Result.ok m →
      m < key.get_p := by
    intro u v m hm
    unfold decrypt_raw at hm
    cases hinv : mod_inverse (modpow u key.get_x key.get_p) key.get_p with
    | none =>
      rw [hinv] at hm
      exact Result.noConfusion hm
    | some i =>
      rw [hinv] at hm
      simp only [Result.ok.injEq] at hm
      rw [← hm]
      exact Nat.mod_lt _ hp
  refine ⟨fun m hm => hraw a b m hm, ?_⟩
  intro m hm
  simp only [non_malleable_decrypt] at hm
  cases hinv : mod_inverse (modpow a c key.get_p) key.get_p with
  | none =>
    rw [hinv] at hm
    exact Result.noConfusion hm
  | some ai =>
    rw [hinv] at hm
    have hm2 : (if hash (to_bytes_be (modpow key.get_g d key.get_p * ai % key.get_p) ++
        to_bytes_be a ++ to_bytes_be b) % key.get_q ≠ c
        then Result.err Error.Verification
        else decrypt_raw a b key.get_p key.get_x) = Result.ok m := hm
    by_cases hif : hash (to_bytes_be (modpow key.get_g d key.get_p * ai % key.get_p) ++
        to_bytes_be a ++ to_bytes_be b) % key.get_q ≠ c
    · rw [if_pos hif] at hm2
      exact Result.noConfusion hm2
    · rw [if_neg hif] at hm2
      exact hraw a b m hm2

/-- Witness for C10 at the toy private key and inputs `a = 16, b = 62`
(an unreduced `b`), `c = 0, d = 5`, digest constantly 0. -/
theorem c10_canonical_output_witness :
    0 < ElgamalPrivateKey.get_p ⟨3, ⟨2, 23, 11⟩, none⟩ ∧
    ((∀ m, decrypt ⟨3, ⟨2, 23, 11⟩, none⟩ 16 62 = Result.ok m →
        m < ElgamalPrivateKey.get_p ⟨3, ⟨2, 23, 11⟩, none⟩) ∧
      (∀ m, non_malleable_decrypt (fun _ => 0) ⟨3, ⟨2, 23, 11⟩, none⟩ 16 62 0 5
          = Result.ok m →
        m < ElgamalPrivateKey.get_p ⟨3, ⟨2, 23, 11⟩, none⟩)) :=
  ⟨by decide,
    c10_canonical_output ⟨3, ⟨2, 23, 11⟩, none⟩ (fun _ => 0) 16 62 0 5 (by decide)⟩

end ElGamal
